import Mathlib

/-!
Verification of the akton-arn resource-identifier core.

Strings are embedded as `List Char` (`Str`) so that rendering and parsing
are plain list functions amenable to induction and to `decide` on
concrete inputs.

The repository names its identifier type `Eid`/`Ern`/`Arn` in different
modules; we use `Ern` throughout.  The injected unique-value generator
(the external `type_safe_id` crate) is modelled by passing the generated
opaque value explicitly as a `fresh : Str` argument; its rendered
type-tagged form `tag_fresh` follows the crate's `tag ++ "_" ++ value`
rendering, which the spec treats as an opaque string-renderable token.
-/

namespace Akton

abbrev Str := List Char

/-- Error taxonomy, from `src/errors.rs` (`ArnError`/`ErnError`). -/
inductive ErnError where
  | ParseFailure (what : Str) (msg : Str)
  | IllegalPartFormat
  | InvalidPrefix (tok : Str)
  | UnexpectedPart (s : Str)
  | InvalidPartFormat
  | IdGenerationFailure (msg : Str)
  | MissingPart (which : Str)
  | InvalidFormat
  | InfallibleError
deriving DecidableEq, Repr

/-- Modelled from the spec: `Domain` (`src/model/domain.rs` is not under
`src/`); a "free-form validated string" whose fixed serialization
prefix token is `"eid:"` (seen in the `Display` tests of
`src/model/ern.rs`).  The spec states no concrete validation rule, so
`Domain.new` is modelled as accepting any string. -/
structure Domain where
  value : Str
deriving DecidableEq, Repr

def Domain.prefixTok : Str := "eid:".toList

def Domain.new (s : Str) : Except ErnError Domain := .ok ⟨s⟩

/-- Modelled from the spec: `Category` (`src/model/category.rs` is not
under `src/`); a free-form string, infallible constructor accepting any
string including the empty one. -/
structure Category where
  value : Str
deriving DecidableEq, Repr

def Category.new (s : Str) : Category := ⟨s⟩

/-- Modelled from the spec: `Account` (`src/model/account.rs` is not
under `src/`); same free-form contract as `Category`. -/
structure Account where
  value : Str
deriving DecidableEq, Repr

def Account.new (s : Str) : Account := ⟨s⟩

/-- Modelled from the spec: `Part` (`src/model/part.rs` is not under
`src/`); rejected iff the input is empty, its first character is the
segment separator `:` , or it contains the hierarchy separator `/`
anywhere (spec §4.1). -/
structure Part where
  value : Str
deriving DecidableEq, Repr

def Part.new (s : Str) : Except ErnError Part :=
  if s = [] then .error .IllegalPartFormat
  else if s.head? = some ':' then .error .IllegalPartFormat
  else if '/' ∈ s then .error .IllegalPartFormat
  else .ok ⟨s⟩

/-- The validity predicate `Part.new` decides. -/
def Part.validStr (s : Str) : Prop :=
  s ≠ [] ∧ s.head? ≠ some ':' ∧ '/' ∉ s

instance (s : Str) : Decidable (Part.validStr s) := by
  unfold Part.validStr; infer_instance

/-- `Root` from `src/model/root.rs`: stores a rendered name string; the
marker type parameter carries no data and is omitted. -/
structure Root where
  name : Str
deriving DecidableEq, Repr

/-- Rendering of the external crate's type-tagged unique id
(`TypeSafeId::from_type_and_uuid(tag, v).to_string()`), modelled as the
tag, an underscore, and the opaque generated value. -/
def typeSafeIdRender (tag fresh : Str) : Str := tag ++ '_' :: fresh

/-- `const ACTON: &str = "acton"` from `src/model/root.rs`. -/
def ACTON : Str := "acton".toList

/-- `Root::new` from `src/model/root.rs` lines 40-56: empty input uses
the fixed `ACTON` tag, otherwise the raw input is the tag; either way the
stored name is the rendered type-tagged unique id.  The generated value
is the explicit `fresh` argument (injected generator). -/
def Root.new (value : Str) (fresh : Str) : Root :=
  if value = [] then ⟨typeSafeIdRender ACTON fresh⟩
  else ⟨typeSafeIdRender value fresh⟩

def Root.as_str (r : Root) : Str := r.name

/-- `impl FromStr for Root` from `src/model/root.rs` lines 73-81: stores
the input literally, never fails, never runs generation. -/
def Root.fromStr (s : Str) : Except ErnError Root := .ok ⟨s⟩

/-- `impl Default for Root`: `Root::new("")` with a freshly generated
value. -/
def Root.defaultRoot (fresh : Str) : Root := Root.new [] fresh

/-- The identifier aggregate from `src/model/ern.rs` (`Eid`/`Ern`);
the `PhantomData` marker field carries no data and is omitted. -/
structure Ern where
  domain : Domain
  category : Category
  account : Account
  root : Root
  parts : List Part
deriving DecidableEq, Repr

/-- Modelled from the spec: `Parts` display (`src/model/parts.rs` is not
under `src/`): "parts joined with `/`". -/
def renderParts : List Part → Str
  | [] => []
  | [p] => p.value
  | p :: q :: ps => p.value ++ '/' :: renderParts (q :: ps)

/-- `impl Display for Eid` from `src/model/ern.rs` lines 20-35: prefix,
domain, category, account, root joined by `:`, then `/` and the parts
joined by `/` only when parts is non-empty. -/
def Ern.render (x : Ern) : Str :=
  let display :=
    Domain.prefixTok ++ x.domain.value ++ ':' :: x.category.value ++
      ':' :: x.account.value ++ ':' :: x.root.name
  if x.parts = [] then display
  else display ++ '/' :: renderParts x.parts

/-- `impl Add for Eid` from `src/model/ern.rs` lines 37-52. -/
def Ern.add (x rhs : Ern) : Ern :=
  { domain := x.domain
    category := x.category
    account := x.account
    root := x.root
    parts := x.parts ++ rhs.parts }

/-- `Eid::is_child_of` from `src/model/ern.rs` lines 158-165. -/
def Ern.is_child_of (x other : Ern) : Bool :=
  decide (x.domain = other.domain)
    && decide (x.category = other.category)
    && decide (x.account = other.account)
    && decide (x.root = other.root)
    && decide (other.parts.length < x.parts.length)
    && other.parts.isPrefixOf x.parts

/-- `Eid::parent` from `src/model/ern.rs` lines 167-180. -/
def Ern.parent (x : Ern) : Option Ern :=
  if x.parts = [] then none
  else some { x with parts := x.parts.dropLast }

/-- `Eid::add_part` from `src/model/ern.rs` lines 130-141. -/
def Ern.add_part (x : Ern) (raw : Str) : Except ErnError Ern :=
  match Part.new raw with
  | .error e => .error e
  | .ok p => .ok { x with parts := x.parts ++ [p] }

/-- `impl Default for Eid`: all components default; the root default
synthesizes a fresh generated value. -/
def Ern.defaultErn (fresh : Str) : Ern :=
  { domain := ⟨ACTON⟩
    category := ⟨[]⟩
    account := ⟨[]⟩
    root := Root.defaultRoot fresh
    parts := [] }

/-- The builder accumulator from `src/builder.rs` lines 60-80
(`PrivateErnBuilder`): optional slots for the four required segments and
an accumulating parts sequence. -/
structure PrivateErnBuilder where
  domain : Option Domain
  category : Option Category
  account : Option Account
  root : Option Root
  parts : List Part
deriving DecidableEq, Repr

def PrivateErnBuilder.new : PrivateErnBuilder :=
  { domain := none, category := none, account := none, root := none, parts := [] }

/-- `PrivateErnBuilder::add_part` from `src/builder.rs` lines 82-105.
The generated value the `Root::new` call would draw from the injected
generator is the explicit `fresh` argument. -/
def PrivateErnBuilder.add_part (b : PrivateErnBuilder) (pfx : Str) (part : Str)
    (fresh : Str) : Except ErnError PrivateErnBuilder :=
  if pfx = Domain.prefixTok then
    match Domain.new part with
    | .error e => .error e
    | .ok d => .ok { b with domain := some d }
  else if pfx = [] then
    if b.domain.isSome && b.category.isNone then
      .ok { b with category := some (Category.new part) }
    else if b.category.isSome && b.account.isNone then
      .ok { b with account := some (Account.new part) }
    else if b.account.isSome && b.root.isNone then
      .ok { b with root := some (Root.new part fresh) }
    else
      match Part.new part with
      | .error e => .error e
      | .ok p => .ok { b with parts := b.parts ++ [p] }
  else if pfx = [':'] then
    match Part.new part with
    | .error e => .error e
    | .ok p => .ok { b with parts := b.parts ++ [p] }
  else .error (.InvalidPrefix pfx)

/-- `PrivateErnBuilder::build` from `src/builder.rs` lines 108-121:
missing slots are reported in the fixed order domain, category, account,
root. -/
def PrivateErnBuilder.build (b : PrivateErnBuilder) : Except ErnError Ern :=
  match b.domain with
  | none => .error (.MissingPart "domain".toList)
  | some d =>
    match b.category with
    | none => .error (.MissingPart "category".toList)
    | some c =>
      match b.account with
      | none => .error (.MissingPart "account".toList)
      | some a =>
        match b.root with
        | none => .error (.MissingPart "root".toList)
        | some r => .ok { domain := d, category := c, account := a, root := r, parts := b.parts }

/-- Strip a literal token from the front of a string; `none` when the
token is absent. -/
def dropPfx : Str → Str → Option Str
  | [], s => some s
  | _ :: _, [] => none
  | p :: ps, c :: cs => if p = c then dropPfx ps cs else none

/-- Split at the first occurrence of `sep`; `none` when `sep` does not
occur. -/
def splitFirst (sep : Char) : Str → Option (Str × Str)
  | [] => none
  | c :: cs =>
    if c = sep then some ([], cs)
    else
      match splitFirst sep cs with
      | none => none
      | some (l, r) => some (c :: l, r)

/-- Split on every occurrence of `sep` (the result always has at least
one field). -/
def splitOnChar (sep : Char) : Str → List Str
  | [] => [[]]
  | c :: cs =>
    match splitOnChar sep cs with
    | [] => [[c]]
    | h :: t => if c = sep then [] :: h :: t else (c :: h) :: t

/-- Validate a list of raw part strings left to right, failing on the
first invalid one. -/
def collectParts : List Str → Except ErnError (List Part)
  | [] => .ok []
  | s :: ss =>
    match Part.new s with
    | .error e => .error e
    | .ok p =>
      match collectParts ss with
      | .error e => .error e
      | .ok ps => .ok (p :: ps)

/-- Modelled from the spec: the parser (`src/parser.rs` is not under
`src/`), following spec §4.4 step by step: (1) split off the domain
prefix token, failing when absent or when the remainder is empty;
(2) split the remainder on `:` into exactly four leading fields;
(3) split the fourth field at its first `/` into the root and the
`/`-separated parts; (4)-(5) construct each segment via the same
constructors the builder uses (the root via the literal, infallible
from-string path), failing on the first invalid segment. -/
def ernParse (s : Str) : Except ErnError Ern :=
  match dropPfx Domain.prefixTok s with
  | none => .error .InvalidFormat
  | some rest =>
    if rest = [] then .error .InvalidFormat
    else
      match splitFirst ':' rest with
      | none => .error .InvalidFormat
      | some (d, rest1) =>
        match splitFirst ':' rest1 with
        | none => .error .InvalidFormat
        | some (c, rest2) =>
          match splitFirst ':' rest2 with
          | none => .error .InvalidFormat
          | some (a, rp) =>
            let rootAndParts :=
              match splitFirst '/' rp with
              | none => (rp, ([] : List Str))
              | some (r, ps) => (r, splitOnChar '/' ps)
            match Domain.new d with
            | .error e => .error e
            | .ok dv =>
              match collectParts rootAndParts.2 with
              | .error e => .error e
              | .ok parts =>
                match Root.fromStr rootAndParts.1 with
                | .error e => .error e
                | .ok rv =>
                  .ok { domain := dv, category := Category.new c,
                        account := Account.new a, root := rv, parts := parts }

/-- The concrete identifier used to refute the unrestricted round-trip
claim: its category contains the segment separator `:`, which the
(free-form, infallible) `Category::new` accepts and the builder stores,
but which collides with the `:`-delimited serialization. -/
def cexErn : Ern :=
  { domain := ⟨"dom".toList⟩
    category := ⟨"a:b".toList⟩
    account := ⟨"c".toList⟩
    root := Root.new "root".toList "f".toList
    parts := [] }

instance {ε α : Type} [DecidableEq ε] [DecidableEq α] : DecidableEq (Except ε α) := fun a b =>
  match a, b with
  | .error e, .error f =>
    if h : e = f then .isTrue (by rw [h]) else .isFalse (fun hh => h (by cases hh; rfl))
  | .error _, .ok _ => .isFalse (fun hh => Except.noConfusion hh)
  | .ok _, .error _ => .isFalse (fun hh => Except.noConfusion hh)
  | .ok u, .ok v =>
    if h : u = v then .isTrue (by rw [h]) else .isFalse (fun hh => h (by cases hh; rfl))

/-- The rendered type-tagged id determines the generated value: equal
renderings under the same tag force equal generated values. -/
theorem typeSafeIdRender_inj (tag : Str) {f g : Str}
    (h : typeSafeIdRender tag f = typeSafeIdRender tag g) : f = g := by
  unfold typeSafeIdRender at h
  have := List.append_cancel_left h
  injection this

/-- C2: `Root::new` does not store its raw input verbatim: a non-empty
raw string becomes the tag of the rendered type-tagged unique id
(tag, separator, generated value), the empty string uses the fixed
`"acton"` tag, and two calls with the same input but distinct generated
values yield roots that compare unequal. -/
theorem root_new_not_verbatim (v f g : Str) :
    (v ≠ [] → (Root.new v f).name = v ++ '_' :: f)
    ∧ (v ≠ [] → (Root.new v f).name ≠ v)
    ∧ (Root.new [] f).name = ACTON ++ '_' :: f
    ∧ (f ≠ g → Root.new v f ≠ Root.new v g) := by
  refine ⟨fun hv => ?_, fun hv => ?_, ?_, fun hfg heq => ?_⟩
  · simp [Root.new, typeSafeIdRender, hv]
  · intro hcontra
    have hlen := congrArg List.length hcontra
    simp [Root.new, typeSafeIdRender, hv] at hlen
  · simp [Root.new, typeSafeIdRender]
  · apply hfg
    by_cases hv : v = [] <;>
      [skip; skip] <;>
      · simp only [Root.new, hv, if_true, if_false, Root.mk.injEq, reduceIte] at heq
        exact typeSafeIdRender_inj _ heq

/-- Witness for `root_new_not_verbatim` at concrete inputs. -/
theorem root_new_not_verbatim_witness :
    (Root.new "x".toList "1".toList).name = "x".toList ++ '_' :: "1".toList
    ∧ (Root.new "x".toList "1".toList).name ≠ "x".toList
    ∧ Root.new "x".toList "1".toList ≠ Root.new "x".toList "2".toList := by
  have h := root_new_not_verbatim "x".toList "1".toList "2".toList
  exact ⟨h.1 (by decide), h.2.1 (by decide), h.2.2.2 (by decide)⟩

/-- C3: the from-string path of `Root` succeeds on every input, stores
it literally (no generation is involved: `Root.fromStr` takes no
generated value), and `as_str` returns exactly the input. -/
theorem root_fromStr_literal (s : Str) :
    Root.fromStr s = .ok ⟨s⟩ ∧ (Root.mk s).as_str = s :=
  ⟨rfl, rfl⟩

/-- C4: `Display` renders the domain prefix, then domain, category,
account and root joined by `:`, and appends `/` followed by the parts
joined by `/` exactly when the parts sequence is non-empty. -/
theorem ern_render_spec (x : Ern) :
    x.render =
      Domain.prefixTok ++ x.domain.value ++ ':' :: x.category.value ++
        ':' :: x.account.value ++ ':' :: x.root.name ++
        (if x.parts = [] then [] else '/' :: renderParts x.parts) := by
  unfold Ern.render
  split <;> simp_all

/-- C5: concatenation keeps the parent's domain, category, account and
root (discarding the child's) and appends the parts sequences. -/
theorem ern_add_spec (p c : Ern) :
    (p.add c).domain = p.domain ∧ (p.add c).category = p.category
    ∧ (p.add c).account = p.account ∧ (p.add c).root = p.root
    ∧ (p.add c).parts = p.parts ++ c.parts :=
  ⟨rfl, rfl, rfl, rfl, rfl⟩

/-- C6: `is_child_of` returns `true` exactly when the four identity
components agree, the other's parts sequence is strictly shorter, and it
is an elementwise prefix of this one's parts sequence. -/
theorem is_child_of_iff (x other : Ern) :
    x.is_child_of other = true ↔
      x.domain = other.domain ∧ x.category = other.category
      ∧ x.account = other.account ∧ x.root = other.root
      ∧ other.parts.length < x.parts.length
      ∧ other.parts <+: x.parts := by
  simp [Ern.is_child_of, List.isPrefixOf_iff_prefix, and_assoc]

/-- C10: default construction mints a fresh generated root, so two
defaults built from distinct generated values compare unequal, for the
root alone and for the whole identifier. -/
theorem default_fresh_unequal (f g : Str) (h : f ≠ g) :
    Ern.defaultErn f ≠ Ern.defaultErn g ∧ Root.defaultRoot f ≠ Root.defaultRoot g := by
  have hroot : Root.defaultRoot f ≠ Root.defaultRoot g := by
    intro heq
    exact h (typeSafeIdRender_inj ACTON
      (by simpa [Root.defaultRoot, Root.new, Root.mk.injEq] using heq))
  exact ⟨fun heq => hroot (congrArg Ern.root heq), hroot⟩

/-- Witness for `default_fresh_unequal` at concrete generated values. -/
theorem default_fresh_unequal_witness :
    Ern.defaultErn "1".toList ≠ Ern.defaultErn "2".toList
    ∧ Root.defaultRoot "1".toList ≠ Root.defaultRoot "2".toList :=
  default_fresh_unequal "1".toList "2".toList (by decide)

/-- C7: `parent()` yields nothing exactly on an empty parts sequence and
otherwise truncates the last part keeping the identity components; a
child obtained by `add_part` from a raw value accepted by `Part`
validation is a child of the original and its parent is the original. -/
theorem parent_add_part (x : Ern) :
    (x.parent = none ↔ x.parts = [])
    ∧ (x.parts ≠ [] → x.parent = some { x with parts := x.parts.dropLast })
    ∧ (∀ raw C, x.add_part raw = .ok C →
        C.is_child_of x = true ∧ C.parent = some x) := by
  refine ⟨?_, fun h => ?_, fun raw C hC => ?_⟩
  · unfold Ern.parent; split <;> simp_all
  · unfold Ern.parent; rw [if_neg h]
  · unfold Ern.add_part at hC
    cases hnew : Part.new raw with
    | error e => rw [hnew] at hC; exact absurd hC (by simp)
    | ok p =>
      rw [hnew] at hC
      have hCeq : C = { x with parts := x.parts ++ [p] } := by
        cases hC; rfl
      subst hCeq
      constructor
      · simp [Ern.is_child_of, List.isPrefixOf_iff_prefix, List.prefix_append]
      · simp [Ern.parent, List.dropLast_concat]

/-- Witness for `parent_add_part`: appending part `"c"` to an identifier
with parts `["a","b"]` yields a child whose parent is the original. -/
theorem parent_add_part_witness :
    Ern.is_child_of
        (Ern.mk ⟨"d".toList⟩ ⟨"c".toList⟩ ⟨"a".toList⟩ ⟨"r".toList⟩
          [⟨"a".toList⟩, ⟨"b".toList⟩, ⟨"c".toList⟩])
        (Ern.mk ⟨"d".toList⟩ ⟨"c".toList⟩ ⟨"a".toList⟩ ⟨"r".toList⟩
          [⟨"a".toList⟩, ⟨"b".toList⟩]) = true
    ∧ Ern.parent
        (Ern.mk ⟨"d".toList⟩ ⟨"c".toList⟩ ⟨"a".toList⟩ ⟨"r".toList⟩
          [⟨"a".toList⟩, ⟨"b".toList⟩, ⟨"c".toList⟩])
      = some (Ern.mk ⟨"d".toList⟩ ⟨"c".toList⟩ ⟨"a".toList⟩ ⟨"r".toList⟩
          [⟨"a".toList⟩, ⟨"b".toList⟩]) :=
  (parent_add_part
    (Ern.mk ⟨"d".toList⟩ ⟨"c".toList⟩ ⟨"a".toList⟩ ⟨"r".toList⟩
      [⟨"a".toList⟩, ⟨"b".toList⟩])).2.2
    "c".toList _ (by decide)

/-- C8: `build()` reports the first absent required segment in the fixed
order domain, category, account, root, and succeeds with the aggregate
identifier when all four are present. -/
theorem build_missing_part (b : PrivateErnBuilder) :
    (b.domain = none → b.build = .error (.MissingPart "domain".toList))
    ∧ (∀ d, b.domain = some d → b.category = none →
        b.build = .error (.MissingPart "category".toList))
    ∧ (∀ d c, b.domain = some d → b.category = some c → b.account = none →
        b.build = .error (.MissingPart "account".toList))
    ∧ (∀ d c a, b.domain = some d → b.category = some c → b.account = some a →
        b.root = none → b.build = .error (.MissingPart "root".toList))
    ∧ (∀ d c a r, b.domain = some d → b.category = some c → b.account = some a →
        b.root = some r →
        b.build = .ok { domain := d, category := c, account := a, root := r,
                        parts := b.parts }) := by
  refine ⟨fun h => ?_, fun d hd hc => ?_, fun d c hd hc ha => ?_,
    fun d c a hd hc ha hr => ?_, fun d c a r hd hc ha hr => ?_⟩ <;>
    simp_all [PrivateErnBuilder.build]

/-- Witness for `build_missing_part`: domain, category and account are
supplied but root never is, so `build` fails naming `"root"`. -/
theorem build_missing_part_witness :
    (PrivateErnBuilder.mk (some ⟨"d".toList⟩) (some ⟨"c".toList⟩)
        (some ⟨"a".toList⟩) none []).build
      = .error (.MissingPart "root".toList) :=
  (build_missing_part _).2.2.2.1 ⟨"d".toList⟩ ⟨"c".toList⟩ ⟨"a".toList⟩ rfl rfl rfl rfl

/-- C9: the accumulator routes each supplied value by its prefix token:
the domain token fills domain; an untagged value fills category when
domain is set and category is not, then account, then root; any further
untagged value, and any value tagged with the hierarchy-separator token,
is appended (when it passes `Part` validation) to the parts sequence;
any other tag is an `InvalidPrefix` error. -/
theorem add_part_dispatch (b : PrivateErnBuilder) (pfx part fresh : Str) :
    (b.add_part Domain.prefixTok part fresh = .ok { b with domain := some ⟨part⟩ })
    ∧ (b.domain ≠ none → b.category = none →
        b.add_part [] part fresh = .ok { b with category := some (Category.new part) })
    ∧ (b.category ≠ none → b.account = none →
        b.add_part [] part fresh = .ok { b with account := some (Account.new part) })
    ∧ (b.category ≠ none → b.account ≠ none → b.root = none →
        b.add_part [] part fresh = .ok { b with root := some (Root.new part fresh) })
    ∧ (∀ p, b.domain ≠ none → b.category ≠ none → b.account ≠ none → b.root ≠ none →
        Part.new part = .ok p →
        b.add_part [] part fresh = .ok { b with parts := b.parts ++ [p] })
    ∧ (∀ p, Part.new part = .ok p →
        b.add_part [':'] part fresh = .ok { b with parts := b.parts ++ [p] })
    ∧ (pfx ≠ Domain.prefixTok → pfx ≠ [] → pfx ≠ [':'] →
        b.add_part pfx part fresh = .error (.InvalidPrefix pfx)) := by
  have hnilne : ¬(([] : Str) = Domain.prefixTok) := by decide
  have hcolne : ¬(([':'] : Str) = Domain.prefixTok) := by decide
  obtain ⟨bd, bc, ba, br, bp⟩ := b
  refine ⟨?_, fun h1 h2 => ?_, fun h1 h2 => ?_, fun h1 h2 h3 => ?_,
    fun p h1 h2 h3 h4 hnew => ?_, fun p hnew => ?_, fun h1 h2 h3 => ?_⟩
  · simp [PrivateErnBuilder.add_part, Domain.new]
  · obtain ⟨d, rfl⟩ := Option.ne_none_iff_exists'.mp h1
    subst h2
    unfold PrivateErnBuilder.add_part
    rw [if_neg hnilne, if_pos rfl]
    simp
  · obtain ⟨c, rfl⟩ := Option.ne_none_iff_exists'.mp h1
    subst h2
    unfold PrivateErnBuilder.add_part
    rw [if_neg hnilne, if_pos rfl]
    simp
  · obtain ⟨c, rfl⟩ := Option.ne_none_iff_exists'.mp h1
    obtain ⟨a, rfl⟩ := Option.ne_none_iff_exists'.mp h2
    subst h3
    unfold PrivateErnBuilder.add_part
    rw [if_neg hnilne, if_pos rfl]
    simp
  · obtain ⟨d, rfl⟩ := Option.ne_none_iff_exists'.mp h1
    obtain ⟨c, rfl⟩ := Option.ne_none_iff_exists'.mp h2
    obtain ⟨a, rfl⟩ := Option.ne_none_iff_exists'.mp h3
    obtain ⟨r, rfl⟩ := Option.ne_none_iff_exists'.mp h4
    unfold PrivateErnBuilder.add_part
    rw [if_neg hnilne, if_pos rfl]
    simp [hnew]
  · unfold PrivateErnBuilder.add_part
    rw [if_neg hcolne, if_neg (by decide : ¬(([':'] : Str) = [])), if_pos rfl]
    simp [hnew]
  · unfold PrivateErnBuilder.add_part
    rw [if_neg h1, if_neg h2, if_neg h3]

/-- Witness for `add_part_dispatch` at a concrete builder state: with
domain and category set and account empty, an untagged value fills
account; an unrecognized tag errors. -/
theorem add_part_dispatch_witness :
    (PrivateErnBuilder.mk (some ⟨"d".toList⟩) (some ⟨"c".toList⟩) none none []).add_part
        [] "acct".toList []
      = .ok (PrivateErnBuilder.mk (some ⟨"d".toList⟩) (some ⟨"c".toList⟩)
          (some ⟨"acct".toList⟩) none [])
    ∧ (PrivateErnBuilder.mk (some ⟨"d".toList⟩) (some ⟨"c".toList⟩) none none []).add_part
        "bogus".toList "x".toList []
      = .error (.InvalidPrefix "bogus".toList) :=
  ⟨(add_part_dispatch
      (PrivateErnBuilder.mk (some ⟨"d".toList⟩) (some ⟨"c".toList⟩) none none [])
      [] "acct".toList []).2.2.1 (by decide) rfl,
   (add_part_dispatch
      (PrivateErnBuilder.mk (some ⟨"d".toList⟩) (some ⟨"c".toList⟩) none none [])
      "bogus".toList "x".toList []).2.2.2.2.2.2 (by decide) (by decide) (by decide)⟩

theorem dropPfx_append (p s : Str) : dropPfx p (p ++ s) = some s := by
  induction p with
  | nil => rfl
  | cons c cs ih => simp [dropPfx, ih]

theorem splitFirst_not_mem {sep : Char} {l : Str} (h : sep ∉ l) :
    splitFirst sep l = none := by
  induction l with
  | nil => rfl
  | cons c cs ih =>
    simp only [List.mem_cons, not_or] at h
    unfold splitFirst
    rw [if_neg (fun hc => h.1 hc.symm), ih h.2]

theorem splitFirst_append {sep : Char} {l : Str} (h : sep ∉ l) (r : Str) :
    splitFirst sep (l ++ sep :: r) = some (l, r) := by
  induction l with
  | nil => simp [splitFirst]
  | cons c cs ih =>
    simp only [List.mem_cons, not_or] at h
    have hcs : ¬(c = sep) := fun hc => h.1 hc.symm
    simp [splitFirst, hcs, ih h.2]

theorem splitOnChar_ne_nil (sep : Char) (s : Str) : splitOnChar sep s ≠ [] := by
  induction s with
  | nil => simp [splitOnChar]
  | cons c cs ih =>
    unfold splitOnChar
    cases hs : splitOnChar sep cs with
    | nil => simp
    | cons h t => by_cases hc : c = sep <;> simp [hc]

theorem splitOnChar_not_mem {sep : Char} {l : Str} (h : sep ∉ l) :
    splitOnChar sep l = [l] := by
  induction l with
  | nil => rfl
  | cons c cs ih =>
    simp only [List.mem_cons, not_or] at h
    have hcs : c ≠ sep := fun hc => h.1 hc.symm
    simp [splitOnChar, ih h.2, hcs]

theorem splitOnChar_append {sep : Char} {l : Str} (h : sep ∉ l) (r : Str) :
    splitOnChar sep (l ++ sep :: r) = l :: splitOnChar sep r := by
  induction l with
  | nil =>
    simp only [List.nil_append]
    cases hs : splitOnChar sep r with
    | nil => exact absurd hs (splitOnChar_ne_nil sep r)
    | cons hh tt => rw [splitOnChar, hs]; simp
  | cons c cs ih =>
    simp only [List.mem_cons, not_or] at h
    have hcs : ¬(c = sep) := fun hc => h.1 hc.symm
    simp [splitOnChar, hcs, ih h.2]

theorem splitOnChar_renderParts {ps : List Part} (h : ∀ p ∈ ps, '/' ∉ p.value)
    (hne : ps ≠ []) : splitOnChar '/' (renderParts ps) = ps.map Part.value := by
  induction ps with
  | nil => exact absurd rfl hne
  | cons p ps ih =>
    cases ps with
    | nil =>
      simpa [renderParts] using splitOnChar_not_mem (h p (by simp))
    | cons q qs =>
      have h1 : '/' ∉ p.value := h p (by simp)
      have h2 : ∀ x ∈ q :: qs, '/' ∉ x.value := fun x hx => h x (by simp [hx])
      simp only [renderParts]
      rw [splitOnChar_append h1, ih h2 (by simp)]
      simp

theorem collectParts_map {ps : List Part} (h : ∀ p ∈ ps, Part.validStr p.value) :
    collectParts (ps.map Part.value) = .ok ps := by
  induction ps with
  | nil => rfl
  | cons p ps ih =>
    obtain ⟨h1, h2, h3⟩ := h p (by simp)
    have hnew : Part.new p.value = .ok p := by
      unfold Part.new
      rw [if_neg h1, if_neg h2, if_neg h3]
    simp [collectParts, hnew, ih (fun x hx => h x (by simp [hx]))]

/-- C1 (amended): parsing inverts rendering for every identifier whose
domain, category and account contain no segment separator `:`, whose
(already-synthesized) root string contains no hierarchy separator `/`,
and whose parts pass `Part` validation — in particular for identifiers
built by the builder from such segments.  The parsed root is the stored
root string verbatim: parsing never re-synthesizes. -/
theorem ern_roundtrip (x : Ern)
    (hd : ':' ∉ x.domain.value) (hc : ':' ∉ x.category.value)
    (ha : ':' ∉ x.account.value) (hr : '/' ∉ x.root.name)
    (hp : ∀ p ∈ x.parts, Part.validStr p.value) :
    ernParse x.render = .ok x := by
  obtain ⟨⟨d⟩, ⟨c⟩, ⟨a⟩, ⟨r⟩, ps⟩ := x
  simp only at hd hc ha hr hp
  by_cases hps : ps = []
  · subst hps
    have hrender : Ern.render (Ern.mk ⟨d⟩ ⟨c⟩ ⟨a⟩ ⟨r⟩ []) =
        Domain.prefixTok ++ (d ++ ':' :: (c ++ ':' :: (a ++ ':' :: r))) := by
      simp [Ern.render]
    simp [ernParse, hrender, dropPfx_append, splitFirst_append hd,
      splitFirst_append hc, splitFirst_append ha, splitFirst_not_mem hr,
      collectParts, Domain.new, Category.new, Account.new, Root.fromStr]
  · have hrender : Ern.render (Ern.mk ⟨d⟩ ⟨c⟩ ⟨a⟩ ⟨r⟩ ps) =
        Domain.prefixTok ++
          (d ++ ':' :: (c ++ ':' :: (a ++ ':' :: (r ++ '/' :: renderParts ps)))) := by
      simp [Ern.render, hps]
    have hslash : ∀ p ∈ ps, '/' ∉ p.value := fun p hpp => (hp p hpp).2.2
    simp [ernParse, hrender, dropPfx_append, splitFirst_append hd,
      splitFirst_append hc, splitFirst_append ha, splitFirst_append hr,
      splitOnChar_renderParts hslash hps, collectParts_map hp,
      Domain.new, Category.new, Account.new, Root.fromStr]

/-- C1 counterexample: the builder accepts a category containing the
segment separator `:` (the free-form `Category::new` imposes no
constraint), but the rendered string then has five `:`-delimited fields
and parsing cannot return the original identifier. -/
theorem ern_roundtrip_cex :
    ((((PrivateErnBuilder.new.add_part Domain.prefixTok "dom".toList []).bind
        (fun b => b.add_part [] "a:b".toList [])).bind
        (fun b => b.add_part [] "c".toList [])).bind
        (fun b => b.add_part [] "root".toList "f".toList)).bind
      PrivateErnBuilder.build = .ok cexErn
    ∧ ernParse cexErn.render ≠ .ok cexErn := by
  constructor <;> decide

/-- Witness for `ern_roundtrip` at a concrete identifier with two
parts. -/
theorem ern_roundtrip_witness :
    ernParse (Ern.render (Ern.mk ⟨"dom".toList⟩ ⟨"cat".toList⟩ ⟨"acc".toList⟩
        ⟨"root_f".toList⟩ [⟨"p1".toList⟩, ⟨"p2".toList⟩]))
      = .ok (Ern.mk ⟨"dom".toList⟩ ⟨"cat".toList⟩ ⟨"acc".toList⟩ ⟨"root_f".toList⟩
        [⟨"p1".toList⟩, ⟨"p2".toList⟩]) :=
  ern_roundtrip _ (by decide) (by decide) (by decide) (by decide) (by decide)

end Akton
